import Mathlib

/-!
Verification of the URL-shortener core (src/main.py) against its
natural-language specification.

The development shallowly embeds the two core components:

* the sequence generator `next_short_string` (src/main.py lines 192-260)
  together with its helper `increment_symbol` and the module constants
  `allowed_characters` / `maxchar_limit` (lines 281-282);
* the admission-pipeline stages of `main_page` (lines 326-354) and their
  helpers `validate_schema`, `validate_url`, `safe_check`,
  `remove_non_ascii` (lines 98-190, 262-268).

Python strings are modelled as `List Char`; Python `str.find` (which
returns `-1` on a miss) is modelled with an `Int` result; network
responses are modelled as explicit inductive data fed to the functions
that the source code applies to them.  Raised `UserWarning`s are
modelled as the `Except.error` branch of an `Except` result, carrying a
category identifying the raise site.
-/

set_option maxHeartbeats 1000000

/-- The module constant `allowed_characters` of src/main.py line 281:
`string.ascii_lowercase + string.ascii_uppercase + string.digits`. -/
def allowed_characters : List Char :=
  ("abcdefghijklmnopqrstuvwxyzABCDEFGHIJKLMNOPQRSTUVWXYZ0123456789").toList

/-- The module constant `maxchar_limit = len(allowed_characters)` of line 282. -/
def maxchar_limit : Nat := allowed_characters.length

/-- Helper for `pyFind`: index of the first occurrence of `c`, counting from
`i`, or `-1` when `c` does not occur.  Mirrors CPython `str.find`. -/
def pyFindAux (c : Char) : List Char → Nat → Int
  | [], _ => -1
  | d :: rest, i => if d = c then (i : Int) else pyFindAux c rest (i + 1)

/-- Python `s.find(c)` for a single character `c`: first index, or `-1`. -/
def pyFind (s : List Char) (c : Char) : Int := pyFindAux c s 0

/-- The helper `increment_symbol` of src/main.py lines 213-221:
`allowed_characters[(allowed_characters.find(letter) + 1) % maxchar_limit]`.
The index is always below `maxchar_limit`, so the `getD` default is
unreachable. -/
def increment_symbol (letter : Char) : Char :=
  allowed_characters.getD
    (((pyFind allowed_characters letter + 1) % (maxchar_limit : Int)).toNat) ('a')

/-- One iteration body of the `for num, symbol in reversed(list(enumerate(prev_string)))`
loop of src/main.py lines 231-251: assign
`new_string[num] = increment_symbol(prev_string[num])` and, when
`num == 0 and new_string[num] == 'a'`, append a further `'a'`
(lines 235-239 and 243-247 share exactly this body). -/
def carry_update (prev new_s : List Char) (num : Nat) : List Char :=
  let ns := new_s.set num (increment_symbol (prev.getD num ('a')))
  if num = 0 ∧ ns.getD num ('a') = ('a' : Char) then ns ++ [('a' : Char)] else ns

/-- The loop of src/main.py lines 231-251, iterating `num` from
`len(prev_string) - 1` down to `0` over the mutable list `new_s`:
the last position (`num + 1 == len(prev_string)`) is always incremented;
an earlier position is incremented only when the position to its right
was incremented to `'a'` (carry); otherwise the loop breaks. -/
def next_loop (prev : List Char) : Nat → List Char → List Char
  | 0, new_s =>
    if 0 + 1 = prev.length then carry_update prev new_s 0
    else if new_s.getD 1 ('a') = ('a' : Char) then carry_update prev new_s 0
    else new_s
  | m + 1, new_s =>
    if m + 1 + 1 = prev.length then next_loop prev m (carry_update prev new_s (m + 1))
    else if new_s.getD (m + 2) ('a') = ('a' : Char) then
      next_loop prev m (carry_update prev new_s (m + 1))
    else new_s

/-- Lines 228-254 of src/main.py: run the carry loop over a copy of
`prev_string`, producing the candidate next code (before the reserved-set
check of lines 256-258). -/
def next_candidate (prev_string : List Char) : List Char :=
  next_loop prev_string (prev_string.length - 1) prev_string

/-- Reference reformulation of the carry loop used by the proofs: process
the *reversed* string from the least-significant symbol; a symbol whose
increment wraps to `'a'` propagates the carry, and a carry that leaves the
string appends a final `'a'`.  `next_loop` is proved equal to this below
(`next_candidate_eq`). -/
def inc_rev : List Char → List Char
  | [] => [('a' : Char)]
  | c :: rest =>
    if increment_symbol c = ('a' : Char) then ('a' : Char) :: inc_rev rest
    else increment_symbol c :: rest

-- ### The ordering on short codes
-- The spec orders codes first by length, then symbol-by-symbol from the
-- most significant position using the alphabet's symbol ranking.

/-- Rank of a symbol in the alphabet (the spec's symbol ordering);
`-1` for a character outside the alphabet. -/
def symRank (c : Char) : Int := pyFind allowed_characters c

/-- Lexicographic comparison of equal-priority symbol sequences by
`symRank`, most significant symbol first. -/
def rankLexLt : List Char → List Char → Bool
  | [], [] => false
  | [], _ :: _ => true
  | _ :: _, [] => false
  | a :: s, b :: t =>
    if symRank a < symRank b then true
    else if symRank a = symRank b then rankLexLt s t
    else false

/-- The total order on codes stated by the spec: shorter codes precede
longer ones, codes of equal length compare lexicographically by symbol
rank. -/
def codeLt (s t : List Char) : Bool :=
  decide (s.length < t.length) || (decide (s.length = t.length) && rankLexLt s t)

/-- A valid prior code: a non-empty string over the 62-symbol alphabet. -/
def isValidCode (s : List Char) : Bool :=
  (!s.isEmpty) && s.all (fun c => allowed_characters.contains c)

-- sanity checks on the generator core
example : next_candidate (("a").toList) = ("b").toList := by decide
example : next_candidate (("z").toList) = ("A").toList := by decide
example : next_candidate (("9").toList) = ("aa").toList := by decide
example : next_candidate (("abz").toList) = ("abA").toList := by decide
example : next_candidate (("aBCf99").toList) = ("aBCgaa").toList := by decide
example : next_candidate (("9999").toList) = ("aaaaa").toList := by decide

-- ### Generic list helpers used by the loop characterization

lemma list_take_succ_getD {α : Type} : ∀ (l : List α) (n : Nat) (d : α), n < l.length →
    l.take (n + 1) = l.take n ++ [l.getD n d] := by
  intro l
  induction l with
  | nil => intro n d h; simp at h
  | cons a t ih =>
    intro n d h
    cases n with
    | zero => simp
    | succ k =>
      rw [List.take_succ_cons, List.take_succ_cons, ih k d (by simpa using h)]
      simp [List.getD]

lemma list_drop_getD_cons {α : Type} : ∀ (l : List α) (n : Nat) (d : α), n < l.length →
    l.drop n = l.getD n d :: l.drop (n + 1) := by
  intro l
  induction l with
  | nil => intro n d h; simp at h
  | cons a t ih =>
    intro n d h
    cases n with
    | zero => simp
    | succ k =>
      rw [List.drop_succ_cons]
      rw [ih k d (by simpa using h)]
      rfl

lemma list_set_append_left {α : Type} : ∀ (l₁ l₂ : List α) (n : Nat) (v : α), n < l₁.length →
    (l₁ ++ l₂).set n v = l₁.set n v ++ l₂ := by
  intro l₁
  induction l₁ with
  | nil => intro l₂ n v h; simp at h
  | cons a t ih =>
    intro l₂ n v h
    cases n with
    | zero => simp [List.set]
    | succ k =>
      simp only [List.cons_append, List.set]
      congr 1
      exact ih l₂ k v (by simpa using h)

lemma list_set_append_length {α : Type} : ∀ (l₁ l₂ : List α) (v : α),
    (l₁ ++ l₂).set l₁.length v = l₁ ++ l₂.set 0 v := by
  intro l₁
  induction l₁ with
  | nil => intro l₂ v; simp
  | cons a t ih =>
    intro l₂ v
    simp only [List.cons_append, List.length_cons, List.set]
    congr 1
    exact ih l₂ v

lemma list_getD_append_length {α : Type} : ∀ (l₁ l₂ : List α) (d : α),
    (l₁ ++ l₂).getD l₁.length d = l₂.getD 0 d := by
  intro l₁
  induction l₁ with
  | nil => intro l₂ d; rfl
  | cons a t ih => intro l₂ d; simpa [List.getD] using ih l₂ d

lemma list_take_set_last {α : Type} (l : List α) (m : Nat) (v d : α) (h : m < l.length) :
    (l.take (m + 1)).set m v = l.take m ++ [v] := by
  rw [list_take_succ_getD l m d h]
  have hlen : (l.take m).length = m := by rw [List.length_take]; omega
  calc (l.take m ++ [l.getD m d]).set m v
      = (l.take m ++ [l.getD m d]).set (l.take m).length v := by rw [hlen]
    _ = l.take m ++ ([l.getD m d].set 0 v) := list_set_append_length _ _ _
    _ = l.take m ++ [v] := rfl

lemma map_inc_replicate : ∀ (l : List Char), (∀ c ∈ l, increment_symbol c = ('a' : Char)) →
    l.map increment_symbol = List.replicate l.length ('a' : Char) := by
  intro l
  induction l with
  | nil => intro _; rfl
  | cons c t ih =>
    intro h
    simp only [List.map, List.length_cons, List.replicate_succ]
    rw [h c (by simp), ih (fun x hx => h x (by simp [hx]))]

-- ### Facts about the alphabet and the symbol ordering

lemma pyFindAux_spec (c : Char) : ∀ (l : List Char) (i : Nat),
    pyFindAux c l i = -1 ∨
      ((i : Int) ≤ pyFindAux c l i ∧ pyFindAux c l i < (i : Int) + l.length) := by
  intro l
  induction l with
  | nil => intro i; left; rfl
  | cons d rest ih =>
    intro i
    by_cases hd : d = c
    · right
      simp only [pyFindAux, hd, if_pos, List.length_cons]
      constructor
      · omega
      · push_cast; omega
    · rcases ih (i + 1) with h | ⟨h1, h2⟩
      · left; simp only [pyFindAux, hd, if_neg, ite_false]; exact h
      · right
        simp only [pyFindAux, hd, if_neg, ite_false, List.length_cons]
        constructor
        · push_cast at h1 ⊢; omega
        · push_cast at h2 ⊢; omega

lemma allowed_characters_length : allowed_characters.length = 62 := by decide

lemma pyFind_getD : ∀ j : Nat, j < 62 →
    pyFind allowed_characters (allowed_characters.getD j ('a')) = (j : Int) := by decide

lemma pyFind_range (c : Char) :
    -1 ≤ pyFind allowed_characters c ∧ pyFind allowed_characters c < 62 := by
  rcases pyFindAux_spec c allowed_characters 0 with h | ⟨h1, h2⟩
  · constructor
    · rw [pyFind, h]
    · rw [pyFind, h]; omega
  · rw [allowed_characters_length] at h2
    constructor
    · rw [pyFind]; omega
    · rw [pyFind]; push_cast at h2; omega

lemma increment_symbol_rank (c : Char) (h : increment_symbol c ≠ ('a' : Char)) :
    0 ≤ symRank c ∧ symRank (increment_symbol c) = symRank c + 1 := by
  obtain ⟨hlow, hhigh⟩ := pyFind_range c
  by_cases hneg : pyFind allowed_characters c = -1
  · exfalso
    apply h
    simp only [increment_symbol, hneg]
    decide
  · obtain ⟨j, hj⟩ : ∃ j : Nat, pyFind allowed_characters c = (j : Int) :=
      ⟨(pyFind allowed_characters c).toNat, by omega⟩
    have hjlt : j < 62 := by omega
    by_cases hj61 : j = 61
    · exfalso
      apply h
      simp only [increment_symbol, hj, hj61]
      decide
    · have hmod : ((j : Int) + 1) % (maxchar_limit : Int) = (j : Int) + 1 := by
        have hml : (maxchar_limit : Int) = 62 := by decide
        rw [hml]
        apply Int.emod_eq_of_lt
        · omega
        · omega
      have htn : (((j : Int) + 1)).toNat = j + 1 := by omega
      constructor
      · simp only [symRank]; omega
      · simp only [symRank, increment_symbol, hj, hmod, htn]
        rw [pyFind_getD (j + 1) (by omega)]
        push_cast
        omega

-- ### Order-theoretic lemmas for `codeLt`

lemma rankLexLt_irrefl : ∀ s, rankLexLt s s = false := by
  intro s
  induction s with
  | nil => rfl
  | cons a t ih => simp [rankLexLt, ih]

lemma rankLexLt_trans : ∀ s t u, rankLexLt s t = true → rankLexLt t u = true →
    rankLexLt s u = true := by
  intro s
  induction s with
  | nil =>
    intro t u h1 h2
    cases t with
    | nil => exact absurd h1 (by simp [rankLexLt])
    | cons b bs =>
      cases u with
      | nil => exact absurd h2 (by simp [rankLexLt])
      | cons c cs => rfl
  | cons a as ih =>
    intro t u h1 h2
    cases t with
    | nil => exact absurd h1 (by simp [rankLexLt])
    | cons b bs =>
      cases u with
      | nil => exact absurd h2 (by simp [rankLexLt])
      | cons c cs =>
        simp only [rankLexLt] at h1 h2 ⊢
        split_ifs at h1 h2 ⊢ with hab hab' hbc hbc' hac hac' <;>
          first
            | rfl
            | omega
            | (exact ih bs cs h1 h2)

lemma codeLt_irrefl (s : List Char) : codeLt s s = false := by
  simp [codeLt, rankLexLt_irrefl]

lemma codeLt_trans (a b c : List Char) (h1 : codeLt a b = true) (h2 : codeLt b c = true) :
    codeLt a c = true := by
  simp only [codeLt, Bool.or_eq_true, decide_eq_true_eq, Bool.and_eq_true] at h1 h2 ⊢
  rcases h1 with h1 | ⟨h1e, h1l⟩
  · rcases h2 with h2 | ⟨h2e, h2l⟩
    · left; omega
    · left; omega
  · rcases h2 with h2 | ⟨h2e, h2l⟩
    · left; omega
    · right
      exact ⟨by omega, rankLexLt_trans a b c h1l h2l⟩

lemma rankLexLt_append_pair : ∀ (x y : List Char), x.length = y.length →
    rankLexLt x y = true → ∀ (c d : Char), rankLexLt (x ++ [c]) (y ++ [d]) = true := by
  intro x
  induction x with
  | nil =>
    intro y hlen h
    cases y with
    | nil => exact absurd h (by simp [rankLexLt])
    | cons b bs => simp at hlen
  | cons a as ih =>
    intro y hlen h
    cases y with
    | nil => simp at hlen
    | cons b bs =>
      intro c d
      simp only [List.cons_append, rankLexLt] at h ⊢
      by_cases hab : symRank a < symRank b
      · rw [if_pos hab]
      · by_cases hab' : symRank a = symRank b
        · rw [if_neg hab, if_pos hab'] at h ⊢
          exact ih bs (by simpa using hlen) h c d
        · rw [if_neg hab, if_neg hab'] at h
          exact absurd h (by simp)

lemma rankLexLt_snoc (p : List Char) (c d : Char) (h : symRank c < symRank d) :
    rankLexLt (p ++ [c]) (p ++ [d]) = true := by
  induction p with
  | nil => simp [rankLexLt, h]
  | cons a q ih => simp [rankLexLt, ih]

lemma codeLt_append_pair (x y : List Char) (c d : Char) (h : codeLt x y = true) :
    codeLt (x ++ [c]) (y ++ [d]) = true := by
  simp only [codeLt, Bool.or_eq_true, decide_eq_true_eq, Bool.and_eq_true,
    List.length_append, List.length_cons] at h ⊢
  rcases h with h | ⟨he, hl⟩
  · left; omega
  · right
    exact ⟨by omega, rankLexLt_append_pair x y he hl c d⟩

lemma codeLt_snoc (p : List Char) (c d : Char) (h : symRank c < symRank d) :
    codeLt (p ++ [c]) (p ++ [d]) = true := by
  have hlen : (p ++ [c]).length = (p ++ [d]).length := by simp
  simp only [codeLt, Bool.or_eq_true, decide_eq_true_eq, Bool.and_eq_true]
  right
  exact ⟨hlen, rankLexLt_snoc p c d h⟩

lemma inc_rev_gt : ∀ r : List Char, codeLt r.reverse ((inc_rev r).reverse) = true := by
  intro r
  induction r with
  | nil => decide
  | cons c rest ih =>
    by_cases hw : increment_symbol c = ('a' : Char)
    · simp only [inc_rev, hw, if_pos, List.reverse_cons]
      exact codeLt_append_pair _ _ _ _ ih
    · simp only [inc_rev, hw, if_neg, ite_false, List.reverse_cons]
      apply codeLt_snoc
      have := increment_symbol_rank c hw
      omega

-- ### Characterization of the carry loop

lemma carry_update_interior (prev : List Char) (m : Nat) (hm : m + 1 < prev.length) :
    carry_update prev (prev.take (m + 2) ++ (prev.drop (m + 2)).map increment_symbol) (m + 1)
      = prev.take (m + 1) ++ (prev.drop (m + 1)).map increment_symbol := by
  have htk2 : (prev.take (m + 2)).length = m + 2 := by rw [List.length_take]; omega
  simp only [carry_update]
  rw [if_neg (fun hand => Nat.succ_ne_zero m hand.1)]
  rw [list_set_append_left _ _ _ _ (by rw [htk2]; omega)]
  rw [show m + 2 = m + 1 + 1 from rfl]
  rw [list_take_set_last prev (m + 1) _ ('a') hm]
  rw [list_drop_getD_cons prev (m + 1) ('a') hm]
  simp [List.append_assoc]

lemma carry_update_zero (prev : List Char) (h0 : 0 < prev.length) :
    carry_update prev (prev.take 1 ++ (prev.drop 1).map increment_symbol) 0
      = (if increment_symbol (prev.getD 0 ('a')) = ('a' : Char)
         then ('a' : Char) :: ((prev.drop 1).map increment_symbol ++ [('a' : Char)])
         else increment_symbol (prev.getD 0 ('a')) :: (prev.drop 1).map increment_symbol) := by
  have htk : prev.take 1 = [prev.getD 0 ('a')] := by
    rw [show (1 : Nat) = 0 + 1 from rfl, list_take_succ_getD prev 0 ('a') h0]
    rfl
  have hset : ([prev.getD 0 ('a')] ++ (prev.drop 1).map increment_symbol).set 0
      (increment_symbol (prev.getD 0 ('a')))
      = increment_symbol (prev.getD 0 ('a')) :: (prev.drop 1).map increment_symbol := rfl
  have hgd0 : (increment_symbol (prev.getD 0 ('a')) ::
      (prev.drop 1).map increment_symbol).getD 0 ('a')
      = increment_symbol (prev.getD 0 ('a')) := rfl
  unfold carry_update
  simp only [htk, hset, hgd0]
  by_cases hv : increment_symbol (prev.getD 0 ('a')) = ('a' : Char)
  · rw [if_pos (show _ ∧ _ from ⟨by trivial, hv⟩), if_pos hv, hv]
    simp
  · rw [if_neg (fun hand => hv hand.2), if_neg hv]

lemma cascade_eq (prev : List Char) (m : Nat) (hm : m + 1 < prev.length) :
    (if m + 1 = prev.length ∨ increment_symbol (prev.getD (m + 1) ('a')) = ('a' : Char) then
        (inc_rev ((prev.take (m + 1)).reverse)).reverse ++ (prev.drop (m + 1)).map increment_symbol
      else prev.take (m + 1) ++ (prev.drop (m + 1)).map increment_symbol)
    = (inc_rev ((prev.take (m + 2)).reverse)).reverse ++ (prev.drop (m + 2)).map increment_symbol := by
  have htake : prev.take (m + 2) = prev.take (m + 1) ++ [prev.getD (m + 1) ('a')] := by
    rw [show m + 2 = m + 1 + 1 from rfl]
    exact list_take_succ_getD prev (m + 1) ('a') hm
  have hdrop : prev.drop (m + 1) = prev.getD (m + 1) ('a') :: prev.drop (m + 2) := by
    rw [show m + 2 = m + 1 + 1 from rfl]
    exact list_drop_getD_cons prev (m + 1) ('a') hm
  by_cases hinc : increment_symbol (prev.getD (m + 1) ('a')) = ('a' : Char)
  · rw [if_pos (Or.inr hinc)]
    rw [htake, hdrop]
    rw [List.reverse_append, List.reverse_singleton, List.singleton_append]
    simp only [inc_rev, hinc, if_pos, List.map_cons, List.reverse_cons]
    simp [List.append_assoc]
  · rw [if_neg (fun hor => hor.elim (fun h1 => absurd h1 (by omega)) hinc)]
    rw [htake, hdrop]
    rw [List.reverse_append, List.reverse_singleton, List.singleton_append]
    simp only [inc_rev, hinc, if_neg, ite_false, List.map_cons, List.reverse_cons,
      List.reverse_reverse]
    simp [List.append_assoc]

lemma inc_rev_single (x : Char) :
    inc_rev [x] = (if increment_symbol x = ('a' : Char)
      then [('a' : Char), ('a' : Char)] else [increment_symbol x]) := by
  by_cases h : increment_symbol x = ('a' : Char)
  · simp [inc_rev, h]
  · simp [inc_rev, h]

lemma next_loop_model (prev : List Char) : ∀ (m : Nat), m < prev.length →
    (∀ c ∈ prev.drop (m + 2), increment_symbol c = ('a' : Char)) →
    next_loop prev m (prev.take (m + 1) ++ (prev.drop (m + 1)).map increment_symbol) =
      (if m + 1 = prev.length ∨ increment_symbol (prev.getD (m + 1) ('a')) = ('a' : Char) then
        (inc_rev ((prev.take (m + 1)).reverse)).reverse ++
          (prev.drop (m + 1)).map increment_symbol
      else prev.take (m + 1) ++ (prev.drop (m + 1)).map increment_symbol) := by
  intro m
  induction m with
  | zero =>
    intro h0 Hw
    simp only [next_loop, Nat.zero_add] at Hw ⊢
    by_cases h1 : 0 + 1 = prev.length
    · rw [if_pos h1, if_pos (Or.inl h1)]
      have hd1 : prev.drop 1 = [] := List.drop_eq_nil_of_le (by omega)
      rw [carry_update_zero prev h0, hd1]
      have htk : prev.take 1 = [prev.getD 0 ('a')] := by
        rw [show (1 : Nat) = 0 + 1 from rfl, list_take_succ_getD prev 0 ('a') h0]
        rfl
      rw [htk]
      simp only [List.map_nil, List.append_nil, List.nil_append]
      rw [show [prev.getD 0 ('a')].reverse = [prev.getD 0 ('a')] from rfl, inc_rev_single]
      by_cases hv : increment_symbol (prev.getD 0 ('a')) = ('a' : Char)
      · rw [if_pos hv]
        rfl
      · rw [if_neg hv]
        rfl
    · rw [if_neg h1]
      have h1lt : 1 < prev.length := by omega
      have htk1 : (prev.take 1).length = 1 := by rw [List.length_take]; omega
      have hgd : (prev.take 1 ++ (prev.drop 1).map increment_symbol).getD 1 ('a')
          = increment_symbol (prev.getD 1 ('a')) := by
        have h := list_getD_append_length (prev.take 1)
          ((prev.drop 1).map increment_symbol) ('a')
        rw [htk1] at h
        rw [h, list_drop_getD_cons prev 1 ('a') h1lt]
        rfl
      by_cases hc : increment_symbol (prev.getD 1 ('a')) = ('a' : Char)
      · rw [if_pos (by rw [hgd]; exact hc)]
        rw [carry_update_zero prev h0]
        have htk : prev.take 1 = [prev.getD 0 ('a')] := by
          rw [show (1 : Nat) = 0 + 1 from rfl, list_take_succ_getD prev 0 ('a') h0]
          rfl
        have hmap : (prev.drop 1).map increment_symbol
            = List.replicate (prev.drop 1).length ('a' : Char) := by
          apply map_inc_replicate
          intro c hcm
          rw [list_drop_getD_cons prev 1 ('a') h1lt] at hcm
          rcases List.mem_cons.mp hcm with rfl | hm
          · exact hc
          · exact Hw c hm
        rw [htk]
        rw [show [prev.getD 0 ('a')].reverse = [prev.getD 0 ('a')] from rfl, inc_rev_single]
        by_cases hv0 : increment_symbol (prev.getD 0 ('a')) = ('a' : Char)
        · rw [if_pos hv0, if_pos (Or.inr hc)]
          rw [hmap]
          have hrep : List.replicate ((prev.drop 1).length) ('a' : Char) ++ [('a' : Char)]
              = ('a' : Char) :: List.replicate ((prev.drop 1).length) ('a' : Char) := by
            rw [← List.replicate_succ', List.replicate_succ]
          rw [hrep, if_pos hv0]
          rfl
        · rw [if_neg hv0, if_pos (Or.inr hc), if_neg hv0]
          rfl
      · rw [if_neg (by rw [hgd]; exact hc)]
        rw [if_neg (fun hor => hor.elim h1 hc)]
  | succ m ih =>
    intro hlt Hw
    simp only [next_loop]
    rw [show m + 1 + 1 = m + 2 from rfl]
    by_cases h1 : m + 2 = prev.length
    · rw [if_pos h1]
      rw [carry_update_interior prev m hlt]
      rw [ih (by omega) (by
        intro c hcm
        rw [List.drop_eq_nil_of_le (by omega : prev.length ≤ m + 2)] at hcm
        simp at hcm)]
      rw [if_pos (Or.inl h1)]
      exact cascade_eq prev m hlt
    · rw [if_neg h1]
      have hm2 : m + 2 < prev.length := by omega
      have htk2 : (prev.take (m + 2)).length = m + 2 := by rw [List.length_take]; omega
      have hgd : (prev.take (m + 2) ++ (prev.drop (m + 2)).map increment_symbol).getD
          (m + 2) ('a') = increment_symbol (prev.getD (m + 2) ('a')) := by
        have h := list_getD_append_length (prev.take (m + 2))
          ((prev.drop (m + 2)).map increment_symbol) ('a')
        rw [htk2] at h
        rw [h, list_drop_getD_cons prev (m + 2) ('a') hm2]
        rfl
      by_cases hc : increment_symbol (prev.getD (m + 2) ('a')) = ('a' : Char)
      · rw [if_pos (by rw [hgd]; exact hc)]
        rw [carry_update_interior prev m hlt]
        rw [ih (by omega) (by
          intro c hcm
          rw [list_drop_getD_cons prev (m + 2) ('a') hm2] at hcm
          rcases List.mem_cons.mp hcm with rfl | hm
          · exact hc
          · exact Hw c hm)]
        rw [if_pos (Or.inr hc)]
        exact cascade_eq prev m hlt
      · rw [if_neg (by rw [hgd]; exact hc)]
        rw [if_neg (fun hor => hor.elim h1 hc)]

lemma next_candidate_eq (prev : List Char) (h : prev ≠ []) :
    next_candidate prev = (inc_rev prev.reverse).reverse := by
  have hL : 0 < prev.length := List.length_pos.mpr h
  have hm : prev.length - 1 < prev.length := by omega
  have hdrop : prev.drop (prev.length - 1 + 2) = [] :=
    List.drop_eq_nil_of_le (by omega)
  have h1 : prev.length - 1 + 1 = prev.length := by omega
  have hmodel := next_loop_model prev (prev.length - 1) hm (by
    intro c hcm
    rw [hdrop] at hcm
    simp at hcm)
  rw [h1] at hmodel
  rw [List.take_length, List.drop_length] at hmodel
  simp only [List.map_nil, List.append_nil] at hmodel
  rw [if_pos (Or.inl (by trivial))] at hmodel
  show next_loop prev (prev.length - 1) prev = (inc_rev prev.reverse).reverse
  exact hmodel

lemma next_candidate_gt (s : List Char) : codeLt s (next_candidate s) = true := by
  by_cases h : s = []
  · subst h; decide
  · rw [next_candidate_eq s h]
    have hrev := inc_rev_gt s.reverse
    rwa [List.reverse_reverse] at hrev

lemma filter_length_mono {α : Type} (p q : α → Bool)
    (himp : ∀ a, q a = true → p a = true) :
    ∀ l : List α, (l.filter q).length ≤ (l.filter p).length := by
  intro l
  induction l with
  | nil => simp
  | cons a t ih =>
    by_cases hqa : q a = true
    · rw [List.filter_cons_of_pos (by simp [hqa]),
        List.filter_cons_of_pos (by simp [himp a hqa])]
      simpa using ih
    · rw [List.filter_cons_of_neg (by simp [hqa])]
      by_cases hpa : p a = true
      · rw [List.filter_cons_of_pos (by simp [hpa])]
        simp only [List.length_cons]
        omega
      · rw [List.filter_cons_of_neg (by simp [hpa])]
        exact ih

lemma filter_length_lt {α : Type} (p q : α → Bool)
    (himp : ∀ a, q a = true → p a = true) :
    ∀ (l : List α) (b : α), b ∈ l → p b = true → q b = false →
    (l.filter q).length < (l.filter p).length := by
  intro l
  induction l with
  | nil => intro b hb; simp at hb
  | cons a t ih =>
    intro b hb hpb hqb
    rcases List.mem_cons.mp hb with rfl | hbt
    · rw [List.filter_cons_of_neg (by simp [hqb]), List.filter_cons_of_pos (by simp [hpb])]
      have hle := filter_length_mono p q himp t
      simp only [List.length_cons]
      omega
    · by_cases hqa : q a = true
      · rw [List.filter_cons_of_pos (by simp [hqa]),
          List.filter_cons_of_pos (by simp [himp a hqa])]
        simp only [List.length_cons]
        exact Nat.succ_lt_succ (ih b hbt hpb hqb)
      · rw [List.filter_cons_of_neg (by simp [hqa])]
        by_cases hpa : p a = true
        · rw [List.filter_cons_of_pos (by simp [hpa])]
          simp only [List.length_cons]
          have := ih b hbt hpb hqb
          omega
        · rw [List.filter_cons_of_neg (by simp [hpa])]
          exact ih b hbt hpb hqb

-- ### The reserved-set retry recursion (src/main.py lines 256-258)
-- The recursion terminates because each candidate is strictly greater than
-- its predecessor (`next_candidate_gt`), so the number of reserved strings
-- strictly above the current one decreases; this is why the order lemmas
-- precede these two definitions.

/-- Lines 256-258 of src/main.py, reached with a non-empty `prev_string` `s`:
compute the candidate and, while `protected` is truthy and the candidate
belongs to it, recurse on the candidate (`next_short_string(new_string,
protected)`).  The Python falsy default `protected=False` is modelled by the
empty list. -/
def next_with_protected (protected_list : List (List Char)) (s : List Char) : List Char :=
  if h : protected_list ≠ [] ∧ next_candidate s ∈ protected_list then
    next_with_protected protected_list (next_candidate s)
  else next_candidate s
termination_by (protected_list.filter (fun p => codeLt s p)).length
decreasing_by
  simp_wf
  exact filter_length_lt _ _ (fun a ha => codeLt_trans _ _ _ (next_candidate_gt s) ha)
    protected_list (next_candidate s) h.2 (next_candidate_gt s) (codeLt_irrefl _)

/-- `next_short_string` of src/main.py lines 192-260.  `prev_string = none`
models the Python default `None`; Python treats `None` and `""` alike through
`if not prev_string` (line 224), returning `'a'` without consulting
`protected`.  Otherwise the carry loop runs and the reserved-set retry of
lines 256-258 applies; the Python recursion re-enters `next_short_string`
with the (always non-empty) candidate, which is exactly
`next_with_protected`. -/
def next_short_string (prev_string : Option (List Char))
    (protected_list : List (List Char)) : List Char :=
  match prev_string with
  | none => [('a' : Char)]
  | some s => if s = [] then [('a' : Char)] else next_with_protected protected_list s

/-- Step counter instrumenting the recursion of `next_with_protected`: the
number of times the carry loop (lines 228-254) runs before a non-reserved
candidate is returned. -/
def next_short_string_steps (protected_list : List (List Char)) (s : List Char) : Nat :=
  if h : protected_list ≠ [] ∧ next_candidate s ∈ protected_list then
    1 + next_short_string_steps protected_list (next_candidate s)
  else 1
termination_by (protected_list.filter (fun p => codeLt s p)).length
decreasing_by
  simp_wf
  exact filter_length_lt _ _ (fun a ha => codeLt_trans _ _ _ (next_candidate_gt s) ha)
    protected_list (next_candidate s) h.2 (next_candidate_gt s) (codeLt_irrefl _)

lemma next_with_protected_aux : ∀ (n : Nat) (r : List (List Char)) (s : List Char),
    (r.filter (fun p => codeLt s p)).length ≤ n →
    next_with_protected r s ∉ r ∧ codeLt s (next_with_protected r s) = true ∧
      next_short_string_steps r s ≤ n + 1 := by
  intro n
  induction n with
  | zero =>
    intro r s hle
    rw [next_with_protected.eq_def, next_short_string_steps.eq_def]
    by_cases hcond : r ≠ [] ∧ next_candidate s ∈ r
    · exfalso
      have hmem : next_candidate s ∈ r.filter (fun p => codeLt s p) :=
        List.mem_filter.mpr ⟨hcond.2, next_candidate_gt s⟩
      have := List.length_pos.mpr (List.ne_nil_of_mem hmem)
      omega
    · rw [dif_neg hcond, dif_neg hcond]
      refine ⟨?_, next_candidate_gt s, by omega⟩
      intro hmem
      exact hcond ⟨List.ne_nil_of_mem hmem, hmem⟩
  | succ n ih =>
    intro r s hle
    rw [next_with_protected.eq_def, next_short_string_steps.eq_def]
    by_cases hcond : r ≠ [] ∧ next_candidate s ∈ r
    · rw [dif_pos hcond, dif_pos hcond]
      have hdec : (r.filter (fun p => codeLt (next_candidate s) p)).length <
          (r.filter (fun p => codeLt s p)).length :=
        filter_length_lt _ _ (fun a ha => codeLt_trans _ _ _ (next_candidate_gt s) ha)
          r (next_candidate s) hcond.2 (next_candidate_gt s) (codeLt_irrefl _)
      obtain ⟨h1, h2, h3⟩ := ih r (next_candidate s) (by omega)
      exact ⟨h1, codeLt_trans _ _ _ (next_candidate_gt s) h2, by omega⟩
    · rw [dif_neg hcond, dif_neg hcond]
      refine ⟨?_, next_candidate_gt s, by omega⟩
      intro hmem
      exact hcond ⟨List.ne_nil_of_mem hmem, hmem⟩

lemma next_with_protected_spec (r : List (List Char)) (s : List Char) :
    next_with_protected r s ∉ r ∧ codeLt s (next_with_protected r s) = true ∧
      next_short_string_steps r s ≤ (r.filter (fun p => codeLt s p)).length + 1 :=
  next_with_protected_aux _ r s le_rfl

lemma next_short_string_nonempty_eq (s : List Char) (h : s ≠ [])
    (r : List (List Char)) : next_short_string (some s) r = next_with_protected r s := by
  simp [next_short_string, h]

lemma next_with_protected_nil (s : List Char) :
    next_with_protected [] s = next_candidate s := by
  rw [next_with_protected.eq_def]
  exact dif_neg (fun hand => hand.1 rfl)

-- ### Admission pipeline (src/main.py lines 98-190, 262-268, 326-354)

/-- Rejection categories of the admission pipeline, one per `UserWarning`
raise site in src/main.py: `illegal_schema` (line 128), `not_reachable`
(line 148), `not_found` (line 346), `untrusted` (the distrust warning of
line 187, the spec calls this category "unsafe"), `json_failure`
(line 179, the "Critical JSON failure" warning), `self_reference`
(line 354).  The user-visible message strings are abstracted away; only
the raise site is tracked. -/
inductive Reject where
  | illegal_schema
  | not_reachable
  | not_found
  | untrusted
  | json_failure
  | self_reference
deriving DecidableEq

/-- Equality of `Except` results is decidable; needed so that concrete
pipeline computations can be checked by `decide`. -/
instance {ε α : Type} [DecidableEq ε] [DecidableEq α] : DecidableEq (Except ε α) :=
  fun x y =>
    match x, y with
    | Except.ok a, Except.ok b =>
      if h : a = b then isTrue (congrArg Except.ok h)
      else isFalse (fun hc => h (Except.ok.inj hc))
    | Except.error e, Except.error f =>
      if h : e = f then isTrue (congrArg Except.error h)
      else isFalse (fun hc => h (Except.error.inj hc))
    | Except.ok _, Except.error _ => isFalse (fun hc => Except.noConfusion hc)
    | Except.error _, Except.ok _ => isFalse (fun hc => Except.noConfusion hc)

/-- Python substring machinery: does `hay` start with `needle`?  Used to
model Python `in` (substring containment) and `str.find`. -/
def starts_with_list : List Char → List Char → Bool
  | [], _ => true
  | _ :: _, [] => false
  | a :: s, b :: t => a == b && starts_with_list s t

/-- Python `needle in hay` for strings: `needle` occurs contiguously in
`hay` (the empty needle always occurs). -/
def py_in (needle : List Char) : List Char → Bool
  | [] => starts_with_list needle []
  | c :: rest => starts_with_list needle (c :: rest) || py_in needle rest

/-- Helper for `py_find_sub`: first index, counted from `i`, at which
`needle` occurs, or `-1`. -/
def py_find_sub_go (needle : List Char) : List Char → Nat → Int
  | [], i => if starts_with_list needle [] then (i : Int) else -1
  | c :: rest, i =>
    if starts_with_list needle (c :: rest) then (i : Int)
    else py_find_sub_go needle rest (i + 1)

/-- Python `hay.find(needle)`: index of the first occurrence, or `-1`. -/
def py_find_sub (needle hay : List Char) : Int := py_find_sub_go needle hay 0

/-- Python `string.punctuation` (used by `validate_schema` line 117). -/
def punctuation : List Char :=
  ("!\x22#$%&\x27()*+,-./:;<=>?@[\\]^_\x60\x7b|\x7d~").toList

/-- The `for char in url` loop of `validate_schema` (src/main.py lines
115-120): walk the characters of `url`; at the first punctuation
character, if it is a colon the schema is `url[:url.find(':')]` (the
characters before that colon), otherwise the schema stays empty; either
way the loop breaks. -/
def schema_scan_go (url : List Char) : List Char → List Char
  | [] => []
  | c :: rest =>
    if c ∈ punctuation then
      (if c = (':' : Char) then url.take (py_find_sub [(':' : Char)] url).toNat else [])
    else schema_scan_go url rest

/-- Schema detection of `validate_schema` (src/main.py lines 110-120):
if `'://'` occurs in the url the schema is everything before its first
occurrence, otherwise scan for a leading colon before any other
punctuation. -/
def detect_schema (url : List Char) : List Char :=
  if py_in (("://").toList) url = true then
    url.take (py_find_sub (("://").toList) url).toNat
  else schema_scan_go url url

/-- `validate_schema` of src/main.py lines 98-128: keep the url when the
schema is exactly `http` or `https` (case-sensitive), prepend `http://`
when no schema was found, and otherwise raise the illegal-schema
UserWarning. -/
def validate_schema (url : List Char) : Except Reject (List Char) :=
  let schema := detect_schema url
  if schema = ("http").toList ∨ schema = ("https").toList then Except.ok url
  else if schema = [] then Except.ok (("http://").toList ++ url)
  else Except.error Reject.illegal_schema

/-- Outcome of the `requests.get(url)` call of `validate_url` (src/main.py
line 143): either some exception (any transport failure) or a completed
response with an integer status code and a server-supplied reason
phrase. -/
inductive FetchResult where
  | failure
  | success (status : Nat) (reason : List Char)

/-- Python `str(n)` for a natural number. -/
def str_nat (n : Nat) : List Char := Nat.toDigits 10 n

/-- `validate_url` of src/main.py lines 130-151: any exception from the
fetch raises the not-reachable UserWarning (line 148); a completed
response yields `str(request.status_code) + ': ' + request.reason`
(line 151). -/
def validate_url : FetchResult → Except Reject (List Char)
  | FetchResult.failure => Except.error Reject.not_reachable
  | FetchResult.success status reason =>
    Except.ok (str_nat status ++ (':' : Char) :: (' ' : Char) :: reason)

/-- Lines 343-346 of `main_page`: `if '404' in url_status:` raises the
not-found UserWarning. -/
def check_404 (url_status : List Char) : Except Reject Unit :=
  if py_in (("404").toList) url_status then Except.error Reject.not_found
  else Except.ok ()

/-- The reachability stage of `main_page` (lines 343-346): run
`validate_url` on the fetch outcome, then apply the `'404' in url_status`
check to the resulting status string. -/
def reachability_stage (fr : FetchResult) : Except Reject (List Char) :=
  match validate_url fr with
  | Except.error e => Except.error e
  | Except.ok url_status =>
    match check_404 url_status with
    | Except.error e => Except.error e
    | Except.ok _ => Except.ok url_status

/-- Abstraction of the WOT response body processed by `safe_check`
(src/main.py lines 168-190) after stripping the `process(...)` wrapper
(line 173): `unparseable` models a payload `json.loads` rejects with
`ValueError` (lines 176-179); `noData` models parsed JSON in which
`next(iter(request_json))` raises `StopIteration` or the `['categories']`
access raises `KeyError` (caught at line 189); `categories codes` models
a payload whose first entry carries a `categories` object with the given
integer keys, in iteration order. -/
inductive WotResponse where
  | unparseable
  | noData
  | categories (codes : List Int)

/-- The module constant `unwanted_WOT_categories` of src/main.py lines
285-287, as an association list. -/
def unwanted_WOT_categories : List (Int × List Char) :=
  [(101, ("Malware or viruses").toList), (103, ("Phishing attempts").toList),
   (104, ("Scams").toList), (105, ("Potentially illegal elements").toList),
   (203, ("Suspicious elements").toList), (204, ("Hate, discrimination").toList),
   (205, ("Spam").toList), (206, ("Potentially unwanted programs").toList)]

/-- The list comprehension of src/main.py line 183: look every category
code up in `unwanted_WOT_categories`; a code outside the dict raises
`KeyError`, aborting the whole comprehension (modelled as `none`). -/
def lookup_categories : List Int → Option (List (List Char))
  | [] => some []
  | i :: rest =>
    match unwanted_WOT_categories.lookup i with
    | none => none
    | some name =>
      match lookup_categories rest with
      | none => none
      | some l => some (name :: l)

/-- `safe_check` of src/main.py lines 153-190 applied to the abstracted
response (the network call and domain extraction are abstracted into the
`WotResponse` input): a `ValueError` from `json.loads` raises the
"Critical JSON failure" UserWarning (line 179); a `KeyError` or
`StopIteration` — including a `KeyError` from the comprehension of line
183 — returns `True` (line 190); otherwise the built category list
triggers the distrust UserWarning (lines 186-187). -/
def safe_check : WotResponse → Except Reject Bool
  | WotResponse.unparseable => Except.error Reject.json_failure
  | WotResponse.noData => Except.ok true
  | WotResponse.categories codes =>
    match lookup_categories codes with
    | none => Except.ok true
    | some _ => Except.error Reject.untrusted

/-- Python 2 `string.whitespace`, the characters removed by `str.strip()`. -/
def py_whitespace : List Char :=
  [('\t' : Char), ('\n' : Char), ('\x0b' : Char), ('\x0c' : Char), ('\r' : Char), (' ' : Char)]

/-- Python `s.strip()`: remove leading and trailing whitespace. -/
def py_strip (s : List Char) : List Char :=
  ((s.dropWhile (fun c => py_whitespace.contains c)).reverse.dropWhile
    (fun c => py_whitespace.contains c)).reverse

/-- `remove_non_ascii` of src/main.py lines 262-268: keep exactly the
characters with `ord(i) < 128`. -/
def remove_non_ascii : List Char → List Char
  | [] => []
  | c :: rest =>
    if c.toNat < 128 then c :: remove_non_ascii rest else remove_non_ascii rest

/-- The normalization stage of `main_page` (lines 333-337):
`long_url.strip()` followed by `remove_non_ascii`. -/
def main_page_normalize (s : List Char) : List Char := remove_non_ascii (py_strip s)

/-- The self-reference stage of `main_page` (lines 351-354):
`request.url in long_url and request.url != long_url` raises the
self-reference UserWarning; `in` is Python substring containment. -/
def self_reference_check (request_url long_url : List Char) : Bool :=
  py_in request_url long_url && !(request_url == long_url)

/-- The whole validation chain of `main_page` (src/main.py lines 333-354)
with the two network interactions supplied as explicit outcomes: normalize,
validate the schema, probe reachability, apply the 404 check, run the
reputation check, and finally the self-reference check against
`request.url`. -/
def main_page_validation (raw : List Char) (fetch : FetchResult) (wot : WotResponse)
    (request_url : List Char) : Except Reject (List Char) :=
  let long_url := main_page_normalize raw
  match validate_schema long_url with
  | Except.error e => Except.error e
  | Except.ok long_url2 =>
    match reachability_stage fetch with
    | Except.error e => Except.error e
    | Except.ok _ =>
      match safe_check wot with
      | Except.error e => Except.error e
      | Except.ok _ =>
        if self_reference_check request_url long_url2 then
          Except.error Reject.self_reference
        else Except.ok long_url2

-- ### Supporting lemmas for the claim theorems

lemma isValidCode_ne_nil (s : List Char) (h : isValidCode s = true) : s ≠ [] := by
  intro h0
  subst h0
  simp [isValidCode] at h

lemma starts_with_list_append (x r : List Char) : starts_with_list x (x ++ r) = true := by
  induction x with
  | nil => rfl
  | cons a s ih => simp [starts_with_list, ih]

lemma py_in_of_starts (x hay : List Char) (h : starts_with_list x hay = true) :
    py_in x hay = true := by
  cases hay with
  | nil => simpa [py_in] using h
  | cons c t => simp [py_in, h]

lemma lookup_categories_none (codes : List Int)
    (h : ∃ i ∈ codes, unwanted_WOT_categories.lookup i = none) :
    lookup_categories codes = none := by
  induction codes with
  | nil => simp at h
  | cons i rest ih =>
    obtain ⟨j, hj, hnone⟩ := h
    rcases List.mem_cons.mp hj with rfl | hm
    · simp [lookup_categories, hnone]
    · cases hli : unwanted_WOT_categories.lookup i with
      | none => simp [lookup_categories, hli]
      | some name => simp [lookup_categories, hli, ih ⟨j, hm, hnone⟩]

lemma remove_non_ascii_eq_filter (s : List Char) :
    remove_non_ascii s = s.filter (fun c => decide (c.toNat < 128)) := by
  induction s with
  | nil => rfl
  | cons c t ih =>
    by_cases h : c.toNat < 128
    · simp only [remove_non_ascii]
      rw [if_pos h, List.filter_cons_of_pos (by simp [h]), ih]
    · simp only [remove_non_ascii]
      rw [if_neg h, List.filter_cons_of_neg (by simp [h]), ih]

-- ### Claim theorems

/-- Claim C1: for every valid prior code (a non-empty string over the
62-symbol alphabet), the next generated code is strictly greater under the
alphabet ordering (length first, then symbol-by-symbol from the most
significant position by symbol rank); hence iterating the generator never
issues the same code twice. -/
theorem c1_generator_strictly_increasing (c : List Char) (h : isValidCode c = true) :
    codeLt c (next_short_string (some c) []) = true := by
  rw [next_short_string_nonempty_eq c (isValidCode_ne_nil c h), next_with_protected_nil]
  exact next_candidate_gt c

theorem c1_witness :
    isValidCode (("az9").toList) = true ∧
      codeLt (("az9").toList) (next_short_string (some (("az9").toList)) []) = true :=
  ⟨by decide, c1_generator_strictly_increasing (("az9").toList) (by decide)⟩

/-- Claim C2 (counterexample): the generator does not satisfy the worked
example `next("aBCf99") = "aCDgaa"`; the code yields `"aBCgaa"` — the
carry stops at the first symbol whose increment does not wrap, so `B` and
`C` are left unchanged. -/
theorem c2_counterexample :
    next_short_string (some (("aBCf99").toList)) [] ≠ ("aCDgaa").toList ∧
      next_short_string (some (("aBCf99").toList)) [] = ("aBCgaa").toList := by
  rw [next_short_string_nonempty_eq _ (by decide), next_with_protected_nil]
  exact ⟨by decide, by decide⟩

/-- Claim C2 (amended): the worked examples hold with `next("aBCf99")`
corrected from `"aCDgaa"` to `"aBCgaa"`; all the other six examples hold
exactly as stated. -/
theorem c2_worked_examples :
    next_short_string none [] = ("a").toList ∧
    next_short_string (some (("a").toList)) [] = ("b").toList ∧
    next_short_string (some (("z").toList)) [] = ("A").toList ∧
    next_short_string (some (("9").toList)) [] = ("aa").toList ∧
    next_short_string (some (("abz").toList)) [] = ("abA").toList ∧
    next_short_string (some (("aBCf99").toList)) [] = ("aBCgaa").toList ∧
    next_short_string (some (("9999").toList)) [] = ("aaaaa").toList := by
  refine ⟨rfl, ?_, ?_, ?_, ?_, ?_, ?_⟩ <;>
    · rw [next_short_string_nonempty_eq _ (by decide), next_with_protected_nil]
      decide

/-- Claim C3: for every valid prior code and finite reserved list, the
generator never returns a reserved string; when the plain increment lands
in the reserved set the result differs from it; and the result is strictly
greater than the prior code under the alphabet ordering. -/
theorem c3_reserved_avoidance (c : List Char) (r : List (List Char))
    (h : isValidCode c = true) :
    next_short_string (some c) r ∉ r ∧
      (next_candidate c ∈ r → next_short_string (some c) r ≠ next_candidate c) ∧
      codeLt c (next_short_string (some c) r) = true := by
  rw [next_short_string_nonempty_eq c (isValidCode_ne_nil c h)]
  obtain ⟨h1, h2, _⟩ := next_with_protected_spec r c
  refine ⟨h1, ?_, h2⟩
  intro hmem heq
  rw [heq] at h1
  exact h1 hmem

theorem c3_witness :
    next_short_string (some (("a").toList)) [("b").toList] ∉ [("b").toList] ∧
      codeLt (("a").toList) (next_short_string (some (("a").toList)) [("b").toList])
        = true := by
  obtain ⟨h1, _, h3⟩ := c3_reserved_avoidance (("a").toList) [("b").toList] (by decide)
  exact ⟨h1, h3⟩

/-- Claim C4 (counterexample): a reputation payload that `json.loads`
cannot parse does not pass the check; `safe_check` raises the "Critical
JSON failure" UserWarning (rejecting the admission) instead of treating it
as "no concerns". -/
theorem c4_counterexample :
    safe_check WotResponse.unparseable = Except.error Reject.json_failure ∧
      safe_check WotResponse.unparseable ≠ Except.ok true := by decide

/-- Claim C4 (amended): the fail-open behaviour applies only to a payload
that parses as JSON but lacks the expected structure (empty object or
missing keys): that case passes as "no concerns", while a payload that
fails JSON parsing raises a rejection. -/
theorem c4_json_failure :
    safe_check WotResponse.noData = Except.ok true ∧
      safe_check WotResponse.unparseable = Except.error Reject.json_failure := by decide

/-- Claim C5 (counterexample): a completed fetch with status code 200 whose
reason phrase contains "404" is rejected with not-found, so rejection is
not equivalent to the status code being 404. -/
theorem c5_counterexample :
    reachability_stage (FetchResult.success 200 (("OK404").toList))
        = Except.error Reject.not_found ∧ (200 : Nat) ≠ 404 := by decide

/-- Claim C5 (amended): a transport failure rejects with not-reachable; a
completed fetch is rejected with not-found exactly when the string "404"
occurs as a substring of `str(status_code) + ': ' + reason`; in particular
status 404 is always rejected, and status 500 with its standard reason
phrase is accepted by this stage. -/
theorem c5_reachability :
    (reachability_stage FetchResult.failure = Except.error Reject.not_reachable) ∧
    (∀ (st : Nat) (reason : List Char),
      reachability_stage (FetchResult.success st reason) = Except.error Reject.not_found ↔
        py_in (("404").toList)
          (str_nat st ++ (':' : Char) :: (' ' : Char) :: reason) = true) ∧
    (∀ reason : List Char,
      reachability_stage (FetchResult.success 404 reason) = Except.error Reject.not_found) ∧
    reachability_stage (FetchResult.success 500 (("Internal Server Error").toList))
      = Except.ok (("500: Internal Server Error").toList) := by
  refine ⟨rfl, ?_, ?_, by decide⟩
  · intro st reason
    simp only [reachability_stage, validate_url, check_404]
    by_cases hpy : py_in ([('4' : Char), ('0' : Char), ('4' : Char)])
        (str_nat st ++ (':' : Char) :: (' ' : Char) :: reason) = true
    · simp [hpy]
    · simp [hpy]
  · intro reason
    simp only [reachability_stage, validate_url, check_404]
    have h404 : str_nat 404 = [('4' : Char), ('0' : Char), ('4' : Char)] := by decide
    have hin : py_in ([('4' : Char), ('0' : Char), ('4' : Char)])
        (str_nat 404 ++ (':' : Char) :: (' ' : Char) :: reason) = true := by
      rw [h404]
      exact py_in_of_starts _ _ (starts_with_list_append _ _)
    simp [hin]

theorem c5_witness :
    (reachability_stage (FetchResult.success 200 (("OK404").toList))
        = Except.error Reject.not_found ↔
      py_in (("404").toList)
        (str_nat 200 ++ (':' : Char) :: (' ' : Char) :: (("OK404").toList)) = true) ∧
      reachability_stage (FetchResult.success 404 (("Not Found").toList))
        = Except.error Reject.not_found :=
  ⟨c5_reachability.2.1 200 (("OK404").toList), c5_reachability.2.2.1 (("Not Found").toList)⟩

/-- Claim C6: schema validation rejects any detected schema token other
than the exact lowercase literals `http`/`https` with illegal-schema
(comparison is case-sensitive), and prepends `http://` when no schema
token is detected; in particular `ftp://host/path` is rejected,
`host/path` is accepted as `http://host/path`, and `HTTP://host/path` is
rejected. -/
theorem c6_schema_validation :
    (∀ url : List Char, detect_schema url ≠ [] → detect_schema url ≠ ("http").toList →
      detect_schema url ≠ ("https").toList →
      validate_schema url = Except.error Reject.illegal_schema) ∧
    (∀ url : List Char, detect_schema url = [] →
      validate_schema url = Except.ok (("http://").toList ++ url)) ∧
    validate_schema (("ftp://host/path").toList) = Except.error Reject.illegal_schema ∧
    validate_schema (("host/path").toList) = Except.ok (("http://host/path").toList) ∧
    validate_schema (("HTTP://host/path").toList) = Except.error Reject.illegal_schema := by
  refine ⟨?_, ?_, by decide, by decide, by decide⟩
  · intro url h1 h2 h3
    simp only [validate_schema]
    rw [if_neg (fun hor => hor.elim h2 h3), if_neg h1]
  · intro url h0
    simp only [validate_schema]
    rw [h0, if_neg (by decide), if_pos rfl]

theorem c6_witness :
    validate_schema (("mailto:bob@x.com").toList) = Except.error Reject.illegal_schema ∧
      validate_schema (("www.example.com/a").toList)
        = Except.ok (("http://www.example.com/a").toList) := by
  constructor
  · exact c6_schema_validation.1 (("mailto:bob@x.com").toList)
      (by decide) (by decide) (by decide)
  · exact c6_schema_validation.2.1 (("www.example.com/a").toList) (by decide)

/-- Claim C7 (counterexample): a URL that merely contains `selfOrigin` in
its interior (not as a prefix) and differs from it is nevertheless
rejected by the self-reference stage — Python `in` is substring
containment, not a starts-with test. -/
theorem c7_counterexample :
    self_reference_check (("http://s.co/").toList)
        (("http://evil.com/?u=http://s.co/x").toList) = true ∧
      starts_with_list (("http://s.co/").toList)
        (("http://evil.com/?u=http://s.co/x").toList) = false := by decide

/-- Claim C7 (amended): the self-reference stage rejects exactly those
URLs that contain `selfOrigin` as a substring and are not equal to it; a
URL equal to `selfOrigin` is never rejected, and a URL that starts with
`selfOrigin` and differs from it is rejected. -/
theorem c7_self_reference :
    (∀ ru lu : List Char,
      self_reference_check ru lu = true ↔ (py_in ru lu = true ∧ ru ≠ lu)) ∧
    (∀ ru lu : List Char, starts_with_list ru lu = true → ru ≠ lu →
      self_reference_check ru lu = true) ∧
    (∀ ru : List Char, self_reference_check ru ru = false) := by
  refine ⟨?_, ?_, ?_⟩
  · intro ru lu
    simp [self_reference_check, Bool.and_eq_true, Bool.not_eq_true', beq_eq_false_iff_ne]
  · intro ru lu hs hne
    simp only [self_reference_check, Bool.and_eq_true, Bool.not_eq_true',
      beq_eq_false_iff_ne]
    exact ⟨py_in_of_starts ru lu hs, hne⟩
  · intro ru
    simp [self_reference_check]

theorem c7_witness :
    self_reference_check (("http://s.co/").toList) (("http://s.co/abc").toList) = true ∧
      self_reference_check (("http://s.co/").toList) (("http://s.co/").toList) = false := by
  constructor
  · exact c7_self_reference.2.1 (("http://s.co/").toList) (("http://s.co/abc").toList)
      (by decide) (by decide)
  · exact c7_self_reference.2.2 (("http://s.co/").toList)

/-- Claim C8 (counterexample): an embedded NUL control character survives
normalization unchanged — characters below code point 128 are kept even
when they are not printable, contradicting the claim that everything
outside the 7-bit printable range is removed. -/
theorem c8_counterexample :
    main_page_normalize [('a' : Char), Char.ofNat 0, ('b' : Char)]
        = [('a' : Char), Char.ofNat 0, ('b' : Char)] ∧
      Char.ofNat 0 ∈ main_page_normalize [('a' : Char), Char.ofNat 0, ('b' : Char)] := by
  decide

/-- Claim C8 (amended): normalization trims surrounding whitespace and
then removes exactly the characters with code point at least 128 — it
equals a filter keeping `ord < 128` over the stripped string — so every
surviving character is 7-bit, but 7-bit control characters embedded in
the interior survive. -/
theorem c8_normalize (s : List Char) :
    main_page_normalize s = (py_strip s).filter (fun c => decide (c.toNat < 128)) ∧
      (∀ c ∈ main_page_normalize s, c.toNat < 128) := by
  constructor
  · exact remove_non_ascii_eq_filter (py_strip s)
  · intro c hc
    simp only [main_page_normalize] at hc
    rw [remove_non_ascii_eq_filter] at hc
    have hmem := (List.mem_filter.mp hc).2
    simpa using hmem

theorem c8_witness :
    main_page_normalize (("  ab  ").toList)
        = (py_strip (("  ab  ").toList)).filter (fun c => decide (c.toNat < 128)) ∧
      ('a' : Char).toNat < 128 :=
  ⟨(c8_normalize (("  ab  ").toList)).1,
    (c8_normalize (("  ab  ").toList)).2 ('a') (by decide)⟩

/-- Claim C9: the reserved-collision regeneration terminates, performing
at most `|r| + 1` candidate generations before returning a non-reserved
code. -/
theorem c9_retry_bound (c : List Char) (r : List (List Char))
    (h : isValidCode c = true) :
    next_short_string_steps r c ≤ r.length + 1 := by
  obtain ⟨_, _, h3⟩ := next_with_protected_spec r c
  have hle := List.length_filter_le (fun p => codeLt c p) r
  omega

theorem c9_witness : next_short_string_steps [("b").toList] (("a").toList) ≤ 2 :=
  c9_retry_bound (("a").toList) [("b").toList] (by decide)

/-- Claim C10: when any category code in the reputation response lies
outside the recognized enumeration, the lookup comprehension raises
`KeyError`, so `safe_check` returns `True` and the admission passes —
even when recognized dangerous categories are present in the same
response. -/
theorem c10_unrecognized_category (codes : List Int)
    (h : ∃ i ∈ codes, unwanted_WOT_categories.lookup i = none) :
    safe_check (WotResponse.categories codes) = Except.ok true := by
  simp [safe_check, lookup_categories_none codes h]

theorem c10_witness :
    safe_check (WotResponse.categories [101, 999]) = Except.ok true :=
  c10_unrecognized_category [101, 999] (by decide)
